import Mathlib

/-!
Verification development for the raytracer.hpp repository.

The C++ code (namespace rt in raytracer.hpp, plus the canvas code in
run_time.cpp / compile_time.cpp) is shallowly embedded here.  The C++
scalar type real_t (= float) is modelled as the exact rationals ℚ; the
only operation of real_t that ℚ cannot provide is cmath::sqrt, which is
therefore passed around as an abstract function parameter sq : ℚ → ℚ
(every theorem below holds for an arbitrary sq, and witnesses
instantiate it with concrete functions agreeing with the square root on
the inputs they touch).  The camera claim, which is stated by the spec
in exact arithmetic, is settled in a second embedding over ℝ with
Real.sqrt at the end of the file.

Fallible C++ code returning std::optional is modelled with Option.
The float sentinel std::numeric_limits of real_t has max value
(2 - 2^-23) * 2^127 = 2^128 - 2^104, reproduced verbatim as flt_max.
-/

namespace rt

/-- Model of rt::vec3 (three real_t components). -/
structure vec3 where
  x : ℚ
  y : ℚ
  z : ℚ
  deriving DecidableEq

instance : Add vec3 := ⟨fun a b => ⟨a.x + b.x, a.y + b.y, a.z + b.z⟩⟩

instance : Sub vec3 := ⟨fun a b => ⟨a.x - b.x, a.y - b.y, a.z - b.z⟩⟩

/-- Model of operator*(real_t, vec3) (scalar times vector). -/
instance : SMul ℚ vec3 := ⟨fun k v => ⟨k * v.x, k * v.y, k * v.z⟩⟩

/-- Model of rt::dot. -/
def dot (v1 v2 : vec3) : ℚ := v1.x * v2.x + v1.y * v2.y + v1.z * v2.z

/-- Model of rt::mag: mag(v) = cmath::sqrt(dot(v, v)), with the abstract
square root sq. -/
def mag (sq : ℚ → ℚ) (v : vec3) : ℚ := sq (dot v v)

/-- Model of rt::norm: norm(v) = (1 / mag(v)) * v. -/
def norm (sq : ℚ → ℚ) (v : vec3) : vec3 := (1 / mag sq v) • v

/-- Model of rt::color (r, g, b of real_t). -/
structure color where
  r : ℚ
  g : ℚ
  b : ℚ
  deriving DecidableEq

namespace color

def white : color := ⟨1, 1, 1⟩

def grey : color := ⟨1/2, 1/2, 1/2⟩

def black : color := ⟨0, 0, 0⟩

def background : color := black

def default_color : color := black

end color

/-- Model of rt::scale(k, v) on colors. -/
def scale (k : ℚ) (v : color) : color := ⟨k * v.r, k * v.g, k * v.b⟩

instance : Add color := ⟨fun v1 v2 => ⟨v1.r + v2.r, v1.g + v2.g, v1.b + v2.b⟩⟩

/-- Model of operator*(color, color) (componentwise product). -/
instance : Mul color := ⟨fun v1 v2 => ⟨v1.r * v2.r, v1.g * v2.g, v1.b * v2.b⟩⟩

namespace cmath

/-- C++ truncation of a real value to intmax_t (rounding toward zero), as
used by the static_cast in cmath::floor. -/
def trunc_cast (q : ℚ) : ℤ := if 0 ≤ q then ⌊q⌋ else ⌈q⌉

/-- Model of the fallback cmath::floor:
static_cast of (val >= 0.0 ? val : val - 1.0) to intmax_t, returned as a
real value. -/
def floor (val : ℚ) : ℚ := ((trunc_cast (if 0 ≤ val then val else val - 1) : ℤ) : ℚ)

/-- Model of the fallback cmath::pow: while (iexp-- > 0) base *= base;
return base. -/
def pow (base : ℚ) (iexp : ℤ) : ℚ :=
  if h : 0 < iexp then pow (base * base) (iexp - 1) else base
  termination_by iexp.toNat
  decreasing_by simp_wf; omega

end cmath

/-- Model of rt::ray. -/
structure ray where
  start : vec3
  dir : vec3
  deriving DecidableEq

/-- Model of rt::light. -/
structure light where
  pos : vec3
  col : color

/-- Model of rt::surface: four pure functions of position plus the
roughness exponent (an int in the source). -/
structure surface where
  diffuse : vec3 → color
  specular : vec3 → color
  reflect : vec3 → ℚ
  roughness : ℤ

/-- Model of rt::sphere.  The constructor stores radius * radius, so the
field is radius2 exactly as in the source. -/
structure sphere where
  centre : vec3
  radius2 : ℚ
  surface_ : surface

/-- Model of rt::plane. -/
structure plane where
  norm : vec3
  offset : ℚ
  surface_ : surface

/-- Model of rt::any_thing: a closed variant of sphere and plane. -/
inductive any_thing where
  | sphere (s : sphere) : any_thing
  | plane (p : plane) : any_thing

/-- Model of rt::intersection.  The C++ thing_ field is a non-owning
pointer to the any_thing that produced the hit; it is modelled by the
any_thing value itself. -/
structure intersection where
  thing_ : any_thing
  ray_ : ray
  dist : ℚ

/-- Model of sphere::intersect.  pself is the any_thing pointer the
wrapping variant passes down for recording in the intersection. -/
def sphere.intersect (sq : ℚ → ℚ) (pself : any_thing) (s : sphere) (ray_ : ray) :
    Option intersection :=
  let eo := s.centre - ray_.start
  let v := dot eo ray_.dir
  let dist : ℚ :=
    if 0 ≤ v then
      let disc := s.radius2 - (dot eo eo - v * v)
      if 0 ≤ disc then v - sq disc else 0
    else 0
  if dist = 0 then none else some ⟨pself, ray_, dist⟩

/-- Model of plane::intersect.  When denom = 0 the C++ code divides by
zero in float (producing an infinity that every later comparison
rejects); in ℚ the division yields 0, and no theorem below depends on
the denom = 0 case. -/
def plane.intersect (pself : any_thing) (p : plane) (ray_ : ray) :
    Option intersection :=
  let denom := dot p.norm ray_.dir
  if 0 < denom then none
  else some ⟨pself, ray_, (dot p.norm ray_.start + p.offset) / (-denom)⟩

/-- Model of any_thing::intersect: dispatch on the variant, passing the
this pointer as pself. -/
def any_thing.intersect (sq : ℚ → ℚ) (t : any_thing) (ray_ : ray) :
    Option intersection :=
  match t with
  | .sphere s => s.intersect sq t ray_
  | .plane p => p.intersect t ray_

/-- Model of sphere::get_normal and plane::get_normal behind the
any_thing dispatch. -/
def any_thing.get_normal (sq : ℚ → ℚ) (t : any_thing) (pos : vec3) : vec3 :=
  match t with
  | .sphere s => norm sq (pos - s.centre)
  | .plane p => p.norm

/-- Model of any_thing::get_surface. -/
def any_thing.get_surface (t : any_thing) : surface :=
  match t with
  | .sphere s => s.surface_
  | .plane p => p.surface_

/-- Model of surfaces::shiny. -/
def surfaces.shiny : surface :=
  ⟨fun _ => color.white, fun _ => color.grey, fun _ => 7/10, 250⟩

/-- Model of a Scene as the renderer consumes it: the things and lights
sequences (the camera is only used by the pixel loop, which no claim
here touches). -/
structure scene where
  things : List any_thing
  lights : List light

/-- The largest finite float, (2 - 2^-23) * 2^127, used by
get_intersections as the initial value of closest. -/
def flt_max : ℚ := 2 ^ 128 - 2 ^ 104

/-- The zero-initialized intersection{} the C++ loop starts from (its
thing_ is a null pointer there; the placeholder is never returned
because closest_inter is only returned after an assignment). -/
def zero_intersection : intersection :=
  ⟨any_thing.plane ⟨⟨0, 0, 0⟩, 0, ⟨fun _ => color.black, fun _ => color.black, fun _ => 0, 0⟩⟩,
   ⟨⟨0, 0, 0⟩, ⟨0, 0, 0⟩⟩, 0⟩

/-- One iteration of the loop body of ray_tracer::get_intersections:
keep (closest, closest_inter) unless this thing reports a hit with
dist < closest. -/
def gi_step (sq : ℚ → ℚ) (ray_ : ray) (acc : ℚ × intersection) (t : any_thing) :
    ℚ × intersection :=
  match t.intersect sq ray_ with
  | some inter => if inter.dist < acc.1 then (inter.dist, inter) else acc
  | none => acc

/-- Model of ray_tracer::get_intersections: fold the loop body over the
scene things starting from closest = flt_max, and report no hit exactly
when closest is still flt_max afterwards. -/
def get_intersections (sq : ℚ → ℚ) (ray_ : ray) (things : List any_thing) :
    Option intersection :=
  let res := things.foldl (gi_step sq ray_) (flt_max, zero_intersection)
  if res.1 = flt_max then none else some res.2

/-- Model of ray_tracer::test_ray: the hit distance of
get_intersections, if any. -/
def test_ray (sq : ℚ → ℚ) (ray_ : ray) (scene_ : scene) : Option ℚ :=
  (get_intersections sq ray_ scene_.things).map intersection.dist

/-- The ray_tracer::max_depth member. -/
def max_depth : ℤ := 5

/-- Model of ray_tracer::add_light. -/
def add_light (sq : ℚ → ℚ) (thing : any_thing) (pos normal rd : vec3)
    (scene_ : scene) (col : color) (light_ : light) : color :=
  let ldis := light_.pos - pos
  let livec := norm sq ldis
  let near_isect := test_ray sq ⟨pos, livec⟩ scene_
  let is_in_shadow : Bool := match near_isect with
    | some near => near < mag sq ldis
    | none => false
  if is_in_shadow then col
  else
    let illum := dot livec normal
    let lcolor := if 0 < illum then scale illum light_.col else color.default_color
    let specular := dot livec (norm sq rd)
    let surf := thing.get_surface
    let scolor := if 0 < specular then scale (cmath.pow specular surf.roughness) light_.col
                  else color.default_color
    col + surf.diffuse pos * lcolor + surf.specular pos * scolor

/-- Model of ray_tracer::get_natural_color: fold add_light over the
scene lights starting from the default (black) color. -/
def get_natural_color (sq : ℚ → ℚ) (thing : any_thing) (pos norm_ rd : vec3)
    (scene_ : scene) : color :=
  scene_.lights.foldl (fun col l => add_light sq thing pos norm_ rd scene_ col l)
    color.default_color

/-- The reflection direction computed in ray_tracer::shade:
d - (2 * (dot(normal, d) * normal)). -/
def reflect_dir (d normal : vec3) : vec3 := d - (2 : ℚ) • (dot normal d • normal)

mutual

/-- Model of ray_tracer::trace_ray. -/
def trace_ray (sq : ℚ → ℚ) (ray_ : ray) (scene_ : scene) (depth : ℤ) : color :=
  match get_intersections sq ray_ scene_.things with
  | some isect => shade sq isect scene_ depth
  | none => color.background
  termination_by ((5 - depth).toNat * 2 + 1)
  decreasing_by simp_wf

/-- Model of ray_tracer::shade.  The get_reflection_color call is
inlined (see get_reflection_color below for the named form and the
lemma relating the two). -/
def shade (sq : ℚ → ℚ) (isect : intersection) (scene_ : scene) (depth : ℤ) : color :=
  let d := isect.ray_.dir
  let pos := isect.dist • d + isect.ray_.start
  let normal := isect.thing_.get_normal sq pos
  let rdir := reflect_dir d normal
  let natural_color := color.background + get_natural_color sq isect.thing_ pos normal rdir scene_
  let reflected_color :=
    if h : max_depth ≤ depth then color.grey
    else scale (isect.thing_.get_surface.reflect pos) (trace_ray sq ⟨pos, rdir⟩ scene_ (depth + 1))
  natural_color + reflected_color
  termination_by ((5 - depth).toNat * 2)
  decreasing_by simp_wf; simp only [max_depth] at h; omega

end

/-- Model of ray_tracer::get_reflection_color. -/
def get_reflection_color (sq : ℚ → ℚ) (thing_ : any_thing) (pos rd : vec3)
    (scene_ : scene) (depth : ℤ) : color :=
  scale (thing_.get_surface.reflect pos) (trace_ray sq ⟨pos, rd⟩ scene_ (depth + 1))

mutual

/-- Fuel-counting variant of trace_ray, used to measure the recursion
depth of the trace_ray / shade / get_reflection_color cycle: one unit
of fuel is consumed per reflection recursion, and none is returned when
the fuel runs out before the computation finishes. -/
def trace_ray_fuel (sq : ℚ → ℚ) (fuel : ℕ) (ray_ : ray) (scene_ : scene) (depth : ℤ) :
    Option color :=
  match get_intersections sq ray_ scene_.things with
  | some isect => shade_fuel sq fuel isect scene_ depth
  | none => some color.background
  termination_by (fuel * 2 + 1)
  decreasing_by simp_wf

/-- Fuel-counting variant of shade; see trace_ray_fuel. -/
def shade_fuel (sq : ℚ → ℚ) (fuel : ℕ) (isect : intersection) (scene_ : scene) (depth : ℤ) :
    Option color :=
  let d := isect.ray_.dir
  let pos := isect.dist • d + isect.ray_.start
  let normal := isect.thing_.get_normal sq pos
  let rdir := reflect_dir d normal
  let natural_color := color.background + get_natural_color sq isect.thing_ pos normal rdir scene_
  if max_depth ≤ depth then some (natural_color + color.grey)
  else
    match fuel with
    | 0 => none
    | fuel' + 1 =>
      (trace_ray_fuel sq fuel' ⟨pos, rdir⟩ scene_ (depth + 1)).map
        (fun c => natural_color + scale (isect.thing_.get_surface.reflect pos) c)
  termination_by (fuel * 2)
  decreasing_by simp_wf; omega

end

/-- Model of the clamp lambda in the canvas code:
std::clamp(val, 0, 1). -/
def clamp (val : ℚ) : ℚ := if val < 0 then 0 else if 1 < val then 1 else val

/-- Model of the canvas rgba record; the four bytes are modelled as
integers (their values always lie in 0..255). -/
structure rgba where
  r : ℤ
  g : ℤ
  b : ℤ
  a : ℤ
  deriving DecidableEq

/-- Model of rgba::from_color, shared by both canvas variants:
dynamic_canvas uses uint8_t(std::floor(clamp(c) * 255.0)) and
static_canvas uses uint8_t(clamp(c) * 255.0); since clamp(c) * 255 is
non-negative, the float-to-integer truncation of the static variant
equals the floor of the dynamic variant. -/
def rgba.from_color (col : color) : rgba :=
  ⟨⌊clamp col.r * 255⌋, ⌊clamp col.g * 255⌋, ⌊clamp col.b * 255⌋, 255⟩

/-- Model of a canvas (dynamic_canvas / static_canvas): width, height
and the row-major pixel buffer. -/
structure canvas where
  width : ℕ
  height : ℕ
  pixels : List rgba

/-- Model of set_pixel: pixels_[x + width * y] = rgba::from_color(col). -/
def set_pixel (cv : canvas) (x y : ℕ) (col : color) : canvas :=
  { cv with pixels := cv.pixels.set (x + cv.width * y) (rgba.from_color col) }

/-!
Concrete inputs used by the witness theorems.  wsq agrees with the
square root on every input the witnesses actually evaluate it at.
-/

def wsq : ℚ → ℚ := fun q => if q = 4 then 2 else if q = 1 then 1 else q

def wsphere : sphere := ⟨⟨0, 0, 0⟩, 1, surfaces.shiny⟩

def wthing : any_thing := any_thing.sphere wsphere

def wray_hit : ray := ⟨⟨0, 0, -2⟩, ⟨0, 0, 1⟩⟩

def wray_miss : ray := ⟨⟨0, 0, 2⟩, ⟨0, 0, 1⟩⟩

def wscene_empty : scene := ⟨[], []⟩

def wisect : intersection := ⟨wthing, wray_hit, 1⟩

def wcanvas : canvas := ⟨2, 2, [⟨0, 0, 0, 0⟩, ⟨0, 0, 0, 0⟩, ⟨0, 0, 0, 0⟩, ⟨0, 0, 0, 0⟩]⟩

def wcolor : color := ⟨2, -1, 1/2⟩

def wlight : light := ⟨⟨0, 2, 0⟩, color.white⟩

def wcol : color := ⟨1/4, 0, 3/4⟩

def wplane_near : plane := ⟨⟨0, -1, 0⟩, 1, surfaces.shiny⟩

def wplane_far : plane := ⟨⟨0, -1, 0⟩, 2, surfaces.shiny⟩

def wscene_near : scene := ⟨[any_thing.plane wplane_near], []⟩

def wscene_far : scene := ⟨[any_thing.plane wplane_far], []⟩

/-!
Concrete plane scene on which get_intersections returns a negative hit
distance: the plane with normal (0, 1, 0) and offset 0, intersected by
the ray starting at (0, -1, 0) with direction (0, -1, 0), reports
denom = -1 and dist = (-1 + 0) / 1 = -1, and the closest-hit loop keeps
it because it never checks the sign of dist.
-/

def cplane : plane := ⟨⟨0, 1, 0⟩, 0, surfaces.shiny⟩

def cthing : any_thing := any_thing.plane cplane

def cray : ray := ⟨⟨0, -1, 0⟩, ⟨0, -1, 0⟩⟩

/-- Reference minimum: the first-wins minimum-distance reported
intersection over a list of things. -/
def first_min_hit (sq : ℚ → ℚ) (ray_ : ray) : List any_thing → Option intersection
  | [] => none
  | t :: ts =>
    match t.intersect sq ray_, first_min_hit sq ray_ ts with
    | none, o => o
    | some i, none => some i
    | some i, some j => some (if i.dist ≤ j.dist then i else j)

end rt

namespace rtR

/-!
Exact-real model of the vector algebra and the camera constructor, for
the claims the spec states in exact arithmetic: real_t is modelled as ℝ
and cmath::sqrt as Real.sqrt (1.5 is the exact 3/2).
-/

/-- Model of rt::vec3 over exact reals. -/
structure vec3R where
  x : ℝ
  y : ℝ
  z : ℝ

instance : Sub vec3R := ⟨fun a b => ⟨a.x - b.x, a.y - b.y, a.z - b.z⟩⟩

instance : SMul ℝ vec3R := ⟨fun k v => ⟨k * v.x, k * v.y, k * v.z⟩⟩

/-- Model of rt::dot over exact reals. -/
def dotR (v1 v2 : vec3R) : ℝ := v1.x * v2.x + v1.y * v2.y + v1.z * v2.z

/-- Model of rt::cross. -/
def crossR (v1 v2 : vec3R) : vec3R :=
  ⟨v1.y * v2.z - v1.z * v2.y,
   v1.z * v2.x - v1.x * v2.z,
   v1.x * v2.y - v1.y * v2.x⟩

/-- Model of rt::mag with the exact square root. -/
noncomputable def magR (v : vec3R) : ℝ := Real.sqrt (dotR v v)

/-- Model of rt::norm. -/
noncomputable def normR (v : vec3R) : vec3R := (1 / magR v) • v

/-- Model of rt::camera (the four fields). -/
structure cameraR where
  pos : vec3R
  forward : vec3R
  right : vec3R
  up : vec3R

/-- Model of the rt::camera constructor:
forward = norm(look_at - pos), right = 1.5 * norm(cross(forward,
(0,-1,0))), up = 1.5 * norm(cross(forward, right)). -/
noncomputable def cameraR.mk_from (pos look_at : vec3R) : cameraR :=
  let forward := normR (look_at - pos)
  let right := (3 / 2 : ℝ) • normR (crossR forward ⟨0, -1, 0⟩)
  let up := (3 / 2 : ℝ) • normR (crossR forward right)
  ⟨pos, forward, right, up⟩

end rtR

namespace rt

@[simp] theorem vec3_add_x (a b : vec3) : (a + b).x = a.x + b.x := rfl

@[simp] theorem vec3_add_y (a b : vec3) : (a + b).y = a.y + b.y := rfl

@[simp] theorem vec3_add_z (a b : vec3) : (a + b).z = a.z + b.z := rfl

@[simp] theorem vec3_sub_x (a b : vec3) : (a - b).x = a.x - b.x := rfl

@[simp] theorem vec3_sub_y (a b : vec3) : (a - b).y = a.y - b.y := rfl

@[simp] theorem vec3_sub_z (a b : vec3) : (a - b).z = a.z - b.z := rfl

@[simp] theorem vec3_smul_x (k : ℚ) (v : vec3) : (k • v).x = k * v.x := rfl

@[simp] theorem vec3_smul_y (k : ℚ) (v : vec3) : (k • v).y = k * v.y := rfl

@[simp] theorem vec3_smul_z (k : ℚ) (v : vec3) : (k • v).z = k * v.z := rfl

@[simp] theorem color_add_r (a b : color) : (a + b).r = a.r + b.r := rfl

@[simp] theorem color_add_g (a b : color) : (a + b).g = a.g + b.g := rfl

@[simp] theorem color_add_b (a b : color) : (a + b).b = a.b + b.b := rfl

theorem color_add_mk (a b : color) : a + b = ⟨a.r + b.r, a.g + b.g, a.b + b.b⟩ := rfl

theorem color_mul_mk (a b : color) : a * b = ⟨a.r * b.r, a.g * b.g, a.b * b.b⟩ := rfl

theorem vec3_add_mk (a b : vec3) : a + b = ⟨a.x + b.x, a.y + b.y, a.z + b.z⟩ := rfl

theorem vec3_sub_mk (a b : vec3) : a - b = ⟨a.x - b.x, a.y - b.y, a.z - b.z⟩ := rfl

theorem vec3_smul_mk (k : ℚ) (v : vec3) : k • v = ⟨k * v.x, k * v.y, k * v.z⟩ := rfl

/-!
Helper unfolding lemmas for the well-founded recursive definitions.
-/

theorem shade_unfold (sq : ℚ → ℚ) (isect : intersection) (scene_ : scene) (depth : ℤ) :
    shade sq isect scene_ depth =
      (color.background + get_natural_color sq isect.thing_
          (isect.dist • isect.ray_.dir + isect.ray_.start)
          (isect.thing_.get_normal sq (isect.dist • isect.ray_.dir + isect.ray_.start))
          (reflect_dir isect.ray_.dir
            (isect.thing_.get_normal sq (isect.dist • isect.ray_.dir + isect.ray_.start)))
          scene_) +
      (if max_depth ≤ depth then color.grey
       else scale
         (isect.thing_.get_surface.reflect (isect.dist • isect.ray_.dir + isect.ray_.start))
         (trace_ray sq
           ⟨isect.dist • isect.ray_.dir + isect.ray_.start,
            reflect_dir isect.ray_.dir
              (isect.thing_.get_normal sq (isect.dist • isect.ray_.dir + isect.ray_.start))⟩
           scene_ (depth + 1))) := by
  rw [shade.eq_def]
  rfl

theorem trace_ray_unfold (sq : ℚ → ℚ) (ray_ : ray) (scene_ : scene) (depth : ℤ) :
    trace_ray sq ray_ scene_ depth =
      match get_intersections sq ray_ scene_.things with
      | some isect => shade sq isect scene_ depth
      | none => color.background := by
  rw [trace_ray.eq_def]

theorem trace_ray_fuel_unfold (sq : ℚ → ℚ) (fuel : ℕ) (ray_ : ray) (scene_ : scene)
    (depth : ℤ) :
    trace_ray_fuel sq fuel ray_ scene_ depth =
      match get_intersections sq ray_ scene_.things with
      | some isect => shade_fuel sq fuel isect scene_ depth
      | none => some color.background := by
  rw [trace_ray_fuel.eq_def]

theorem shade_fuel_natural (sq : ℚ → ℚ) (fuel : ℕ) (isect : intersection) (scene_ : scene)
    (depth : ℤ) (h : max_depth ≤ depth) :
    shade_fuel sq fuel isect scene_ depth =
      some ((color.background + get_natural_color sq isect.thing_
          (isect.dist • isect.ray_.dir + isect.ray_.start)
          (isect.thing_.get_normal sq (isect.dist • isect.ray_.dir + isect.ray_.start))
          (reflect_dir isect.ray_.dir
            (isect.thing_.get_normal sq (isect.dist • isect.ray_.dir + isect.ray_.start)))
          scene_) + color.grey) := by
  rw [shade_fuel.eq_def]
  simp only [if_pos h]

theorem shade_fuel_succ (sq : ℚ → ℚ) (fuel : ℕ) (isect : intersection) (scene_ : scene)
    (depth : ℤ) (h : ¬ max_depth ≤ depth) :
    shade_fuel sq (fuel + 1) isect scene_ depth =
      (trace_ray_fuel sq fuel
        ⟨isect.dist • isect.ray_.dir + isect.ray_.start,
         reflect_dir isect.ray_.dir
           (isect.thing_.get_normal sq (isect.dist • isect.ray_.dir + isect.ray_.start))⟩
        scene_ (depth + 1)).map
        (fun c =>
          (color.background + get_natural_color sq isect.thing_
            (isect.dist • isect.ray_.dir + isect.ray_.start)
            (isect.thing_.get_normal sq (isect.dist • isect.ray_.dir + isect.ray_.start))
            (reflect_dir isect.ray_.dir
              (isect.thing_.get_normal sq (isect.dist • isect.ray_.dir + isect.ray_.start)))
            scene_) +
          scale (isect.thing_.get_surface.reflect (isect.dist • isect.ray_.dir + isect.ray_.start)) c) := by
  rw [shade_fuel.eq_def]
  simp only [if_neg h]

/-!
Claim theorems.
-/

/-- Claim C3: for every base and every non-negative integer iexp, the
fallback implementation of pow(base, iexp) returns base raised to the
power 2^iexp (iexp successive self-multiplications of base), not
base^iexp. -/
theorem cmath_pow_squares (base : ℚ) (iexp : ℕ) :
    cmath.pow base (iexp : ℤ) = base ^ (2 ^ iexp) := by
  induction iexp generalizing base with
  | zero =>
    rw [cmath.pow]
    norm_num
  | succ k ih =>
    rw [cmath.pow]
    have h1 : (0 : ℤ) < ((k + 1 : ℕ) : ℤ) := by positivity
    rw [dif_pos h1]
    have h2 : ((k + 1 : ℕ) : ℤ) - 1 = ((k : ℕ) : ℤ) := by push_cast; ring
    rw [h2, ih]
    have h3 : base * base = base ^ 2 := by ring
    rw [h3, ← pow_mul]
    congr 1
    rw [pow_succ]
    ring

/-- Claim C4 (code bug): the spec says the fallback floor(x) is the
greatest integer less than or equal to x, but at the negative integer
x = -1 the code computes the truncation of x - 1 = -2 and returns -2,
while the greatest integer less than or equal to -1 is -1. -/
theorem cmath_floor_neg_one :
    cmath.floor (-1) = -2 ∧ (⌊(-1 : ℚ)⌋ : ℤ) = -1 := by
  constructor
  · norm_num [cmath.floor, cmath.trunc_cast]
    decide
  · norm_num

/-- Claim C2: sphere::intersect returns no intersection when
v = dot(centre - start, dir) < 0, no intersection when v >= 0 but
disc = radius2 - (dot(eo,eo) - v*v) < 0, no intersection when the
computed dist = v - sqrt(disc) equals 0 exactly, and in every other
case the intersection recording that dist, the sphere (through the
pself pointer) and the ray. -/
theorem sphere_intersect_cases (sq : ℚ → ℚ) (pself : any_thing) (s : sphere) (r : ray)
    (eo : vec3) (v disc : ℚ)
    (heo : eo = s.centre - r.start) (hv : v = dot eo r.dir)
    (hdisc : disc = s.radius2 - (dot eo eo - v * v)) :
    (v < 0 → s.intersect sq pself r = none) ∧
    (0 ≤ v → disc < 0 → s.intersect sq pself r = none) ∧
    (0 ≤ v → 0 ≤ disc → v - sq disc = 0 → s.intersect sq pself r = none) ∧
    (0 ≤ v → 0 ≤ disc → v - sq disc ≠ 0 →
      s.intersect sq pself r = some ⟨pself, r, v - sq disc⟩) := by
  subst heo hv hdisc
  refine ⟨fun h => ?_, fun h0 hd => ?_, fun h0 hd hz => ?_, fun h0 hd hz => ?_⟩
  · simp [sphere.intersect, not_le.mpr h]
  · simp [sphere.intersect, h0, not_le.mpr hd]
  · simp [sphere.intersect, h0, hd, hz]
  · simp [sphere.intersect, h0, hd, hz]

/-- Claim C5: when shade is called with depth at or above max_depth
(which equals 5), the reflected contribution is the grey color
(0.5, 0.5, 0.5) rather than a recursive reflection trace, so shade
returns the natural color plus grey; when depth < 5 the reflected
contribution is get_reflection_color called at this depth (which
traces the reflection ray at depth + 1). -/
theorem shade_depth_cases (sq : ℚ → ℚ) (isect : intersection) (scene_ : scene) (depth : ℤ)
    (pos normal rdir : vec3) (natural : color)
    (hpos : pos = isect.dist • isect.ray_.dir + isect.ray_.start)
    (hnormal : normal = isect.thing_.get_normal sq pos)
    (hrdir : rdir = reflect_dir isect.ray_.dir normal)
    (hnat : natural = color.background + get_natural_color sq isect.thing_ pos normal rdir scene_) :
    max_depth = 5 ∧ color.grey = ⟨1/2, 1/2, 1/2⟩ ∧
    (5 ≤ depth → shade sq isect scene_ depth = natural + color.grey) ∧
    (depth < 5 → shade sq isect scene_ depth =
      natural + get_reflection_color sq isect.thing_ pos rdir scene_ depth) := by
  subst hpos
  subst hnormal
  subst hrdir
  subst hnat
  refine ⟨rfl, rfl, fun h5 => ?_, fun hlt => ?_⟩
  · rw [shade_unfold, if_pos (show max_depth ≤ depth from h5)]
  · rw [shade_unfold, if_neg (show ¬ max_depth ≤ depth from not_le.mpr hlt)]
    rfl

/-- Claim C7: trace_ray terminates for every integer depth.  The model
functions trace_ray and shade are total Lean functions (their mutual
recursion is well-founded along the measure max(0, 5 - depth)); this
theorem makes the bound explicit: the fuel-counting variant, which
spends one unit of fuel per reflection recursion and fails when fuel
runs out, already succeeds and agrees with trace_ray whenever the fuel
is at least (5 - depth).toNat = max(0, 5 - depth). -/
theorem trace_ray_terminates (sq : ℚ → ℚ) (fuel : ℕ) (ray_ : ray) (scene_ : scene)
    (depth : ℤ) (h : (5 - depth).toNat ≤ fuel) :
    trace_ray_fuel sq fuel ray_ scene_ depth = some (trace_ray sq ray_ scene_ depth) := by
  have H : ∀ fuel : ℕ, ∀ scene_ : scene,
      (∀ isect depth, (5 - depth).toNat ≤ fuel →
        shade_fuel sq fuel isect scene_ depth = some (shade sq isect scene_ depth)) ∧
      (∀ ray_ depth, (5 - depth).toNat ≤ fuel →
        trace_ray_fuel sq fuel ray_ scene_ depth = some (trace_ray sq ray_ scene_ depth)) := by
    intro fuel
    induction fuel with
    | zero =>
      intro scene_
      have hs : ∀ isect depth, (5 - depth).toNat ≤ 0 →
          shade_fuel sq 0 isect scene_ depth = some (shade sq isect scene_ depth) := by
        intro isect depth h0
        have h5 : max_depth ≤ depth := by simp only [max_depth]; omega
        rw [shade_fuel_natural sq 0 isect scene_ depth h5, shade_unfold, if_pos h5]
      refine ⟨hs, fun ray_ depth h0 => ?_⟩
      rw [trace_ray_fuel_unfold, trace_ray_unfold]
      cases hgi : get_intersections sq ray_ scene_.things with
      | none => rfl
      | some isect => exact hs isect depth h0
    | succ k ih =>
      intro scene_
      have hs : ∀ isect depth, (5 - depth).toNat ≤ k + 1 →
          shade_fuel sq (k + 1) isect scene_ depth = some (shade sq isect scene_ depth) := by
        intro isect depth h0
        by_cases h5 : max_depth ≤ depth
        · rw [shade_fuel_natural sq (k + 1) isect scene_ depth h5, shade_unfold, if_pos h5]
        · rw [shade_fuel_succ sq k isect scene_ depth h5,
            (ih scene_).2 _ (depth + 1) (by simp only [max_depth] at h5; omega),
            shade_unfold, if_neg h5]
          rfl
      refine ⟨hs, fun ray_ depth h0 => ?_⟩
      rw [trace_ray_fuel_unfold, trace_ray_unfold]
      cases hgi : get_intersections sq ray_ scene_.things with
      | none => rfl
      | some isect => exact hs isect depth h0
  exact (H fuel scene_).2 ray_ depth h

/-- Claim C8: for every canvas whose buffer has length width * height,
every in-range pixel (x, y) and every color (channels possibly outside
the unit interval), set_pixel stores at buffer index x + width * y the
four bytes (floor(255 * clamp r), floor(255 * clamp g),
floor(255 * clamp b), 255), leaves every other index unchanged, and
the alpha byte is always 255. -/
theorem set_pixel_spec (cv : canvas) (x y : ℕ) (col : color)
    (hlen : cv.pixels.length = cv.width * cv.height)
    (hx : x < cv.width) (hy : y < cv.height) :
    (set_pixel cv x y col).pixels[(x + cv.width * y)]? =
      some ⟨⌊255 * clamp col.r⌋, ⌊255 * clamp col.g⌋, ⌊255 * clamp col.b⌋, 255⟩ ∧
    (∀ j : ℕ, j ≠ x + cv.width * y → (set_pixel cv x y col).pixels[j]? = cv.pixels[j]?) ∧
    (rgba.from_color col).a = 255 := by
  have h1 : cv.width * (y + 1) ≤ cv.width * cv.height :=
    Nat.mul_le_mul_left _ (by omega)
  have h2 : cv.width * (y + 1) = cv.width * y + cv.width := by ring
  have hidx : x + cv.width * y < cv.pixels.length := by
    rw [hlen]; omega
  refine ⟨?_, fun j hj => ?_, rfl⟩
  · show (cv.pixels.set (x + cv.width * y) (rgba.from_color col))[(x + cv.width * y)]? = _
    rw [List.getElem?_set_eq_of_lt _ hidx]
    simp [rgba.from_color, mul_comm]
  · show (cv.pixels.set (x + cv.width * y) (rgba.from_color col))[j]? = _
    rw [List.getElem?_set_ne (fun hc => hj hc.symm)]

/-- Claim C9: for every incoming direction d and every unit-length
normal n (dot n n = 1 in exact arithmetic), the reflection direction
computed in shade, reflect_dir = d - 2 (dot n d) n, satisfies
dot reflect_dir n = -(dot d n). -/
theorem reflect_dir_dot (d n : vec3) (h : dot n n = 1) :
    dot (reflect_dir d n) n = -(dot d n) := by
  simp only [reflect_dir, dot, vec3_sub_x, vec3_sub_y, vec3_sub_z,
    vec3_smul_x, vec3_smul_y, vec3_smul_z] at h ⊢
  linear_combination (-2 * (n.x * d.x + n.y * d.y + n.z * d.z)) * h

theorem sphere_intersect_cases_witness :
    sphere.intersect wsq wthing wsphere wray_hit = some ⟨wthing, wray_hit, 1⟩ ∧
    sphere.intersect wsq wthing wsphere wray_miss = none := by
  constructor
  · have h := (sphere_intersect_cases wsq wthing wsphere wray_hit _ _ _ rfl rfl rfl).2.2.2
      (by norm_num [dot, wsphere, wray_hit]) (by norm_num [dot, wsphere, wray_hit])
      (by norm_num [dot, wsq, wsphere, wray_hit])
    refine h.trans ?_
    norm_num [dot, wsq, wsphere, wray_hit]
  · exact (sphere_intersect_cases wsq wthing wsphere wray_miss _ _ _ rfl rfl rfl).1
      (by norm_num [dot, wsphere, wray_miss])

theorem shade_depth_cases_witness :
    shade wsq wisect wscene_empty 7 =
      (color.background + get_natural_color wsq wisect.thing_
          (wisect.dist • wisect.ray_.dir + wisect.ray_.start)
          (wisect.thing_.get_normal wsq (wisect.dist • wisect.ray_.dir + wisect.ray_.start))
          (reflect_dir wisect.ray_.dir
            (wisect.thing_.get_normal wsq (wisect.dist • wisect.ray_.dir + wisect.ray_.start)))
          wscene_empty) + color.grey :=
  (shade_depth_cases wsq wisect wscene_empty 7 _ _ _ _ rfl rfl rfl rfl).2.2.1 (by norm_num)

theorem trace_ray_terminates_witness :
    trace_ray_fuel wsq 5 wray_miss wscene_empty 0 =
      some (trace_ray wsq wray_miss wscene_empty 0) :=
  trace_ray_terminates wsq 5 wray_miss wscene_empty 0 (by decide)

theorem set_pixel_spec_witness :
    (set_pixel wcanvas 1 0 wcolor).pixels[(1 + wcanvas.width * 0)]? =
      some ⟨⌊255 * clamp wcolor.r⌋, ⌊255 * clamp wcolor.g⌋, ⌊255 * clamp wcolor.b⌋, 255⟩ :=
  (set_pixel_spec wcanvas 1 0 wcolor rfl (by decide) (by decide)).1

theorem reflect_dir_dot_witness :
    dot (reflect_dir ⟨1, -1, 0⟩ ⟨0, 1, 0⟩) ⟨0, 1, 0⟩ = -(dot ⟨1, -1, 0⟩ ⟨0, 1, 0⟩) :=
  reflect_dir_dot ⟨1, -1, 0⟩ ⟨0, 1, 0⟩ (by norm_num [dot])

/-!
Characterization of get_intersections (claim C1).  first_min_hit is the
reference function written from the amended claim text: the reported
intersection with the smallest dist, ties broken in favour of the first
thing in sequence order.
-/

theorem first_min_hit_none_iff (sq : ℚ → ℚ) (ray_ : ray) (ts : List any_thing) :
    first_min_hit sq ray_ ts = none ↔ ∀ t ∈ ts, t.intersect sq ray_ = none := by
  induction ts with
  | nil => simp [first_min_hit]
  | cons t ts ih =>
    cases hti : t.intersect sq ray_ with
    | none => simp only [first_min_hit, hti, ih, List.forall_mem_cons, hti, true_and]
    | some i =>
      cases hmh : first_min_hit sq ray_ ts with
      | none => simp [first_min_hit, hti, hmh, List.forall_mem_cons]
      | some j => simp [first_min_hit, hti, hmh, List.forall_mem_cons]

theorem first_min_hit_mem (sq : ℚ → ℚ) (ray_ : ray) :
    ∀ (ts : List any_thing) (i : intersection), first_min_hit sq ray_ ts = some i →
      ∃ t ∈ ts, t.intersect sq ray_ = some i := by
  intro ts
  induction ts with
  | nil => intro i h; simp [first_min_hit] at h
  | cons t ts ih =>
    intro i h
    cases hti : t.intersect sq ray_ with
    | none =>
      simp only [first_min_hit, hti] at h
      obtain ⟨t2, ht2, hin⟩ := ih i h
      exact ⟨t2, List.mem_cons_of_mem _ ht2, hin⟩
    | some i0 =>
      cases hmh : first_min_hit sq ray_ ts with
      | none =>
        simp only [first_min_hit, hti, hmh, Option.some.injEq] at h
        exact ⟨t, List.mem_cons_self _ _, by rw [hti, h]⟩
      | some j =>
        simp only [first_min_hit, hti, hmh, Option.some.injEq] at h
        by_cases hle : i0.dist ≤ j.dist
        · rw [if_pos hle] at h
          exact ⟨t, List.mem_cons_self _ _, by rw [hti, h]⟩
        · rw [if_neg hle] at h
          obtain ⟨t2, ht2, hin⟩ := ih j hmh
          rw [h] at hin
          exact ⟨t2, List.mem_cons_of_mem _ ht2, hin⟩

theorem first_min_hit_min (sq : ℚ → ℚ) (ray_ : ray) :
    ∀ (ts : List any_thing) (i : intersection), first_min_hit sq ray_ ts = some i →
      ∀ t ∈ ts, ∀ j, t.intersect sq ray_ = some j → i.dist ≤ j.dist := by
  intro ts
  induction ts with
  | nil => intro i h; simp [first_min_hit] at h
  | cons t ts ih =>
    intro i h t2 ht2 j htj
    cases hti : t.intersect sq ray_ with
    | none =>
      simp only [first_min_hit, hti] at h
      rcases List.mem_cons.mp ht2 with heq | hmem
      · subst heq; rw [hti] at htj; simp at htj
      · exact ih i h t2 hmem j htj
    | some i0 =>
      cases hmh : first_min_hit sq ray_ ts with
      | none =>
        simp only [first_min_hit, hti, hmh, Option.some.injEq] at h
        subst h
        rcases List.mem_cons.mp ht2 with heq | hmem
        · subst heq; rw [hti] at htj
          injection htj with h2
          rw [← h2]
        · have := (first_min_hit_none_iff sq ray_ ts).mp hmh t2 hmem
          rw [this] at htj; simp at htj
      | some j0 =>
        simp only [first_min_hit, hti, hmh, Option.some.injEq] at h
        rcases List.mem_cons.mp ht2 with heq | hmem
        · subst heq; rw [hti] at htj
          injection htj with h2
          by_cases hle : i0.dist ≤ j0.dist
          · rw [if_pos hle] at h; subst h; rw [← h2]
          · rw [if_neg hle] at h; subst h; rw [← h2]
            exact le_of_lt (not_le.mp hle)
        · have hj := ih j0 hmh t2 hmem j htj
          by_cases hle : i0.dist ≤ j0.dist
          · rw [if_pos hle] at h; subst h; exact le_trans hle hj
          · rw [if_neg hle] at h; subst h; exact hj

theorem first_min_hit_first (sq : ℚ → ℚ) (ray_ : ray) :
    ∀ (ts : List any_thing) (i : intersection), first_min_hit sq ray_ ts = some i →
      ∃ k : Fin ts.length, (ts.get k).intersect sq ray_ = some i ∧
        ∀ m : Fin ts.length, (m : ℕ) < (k : ℕ) → ∀ j, (ts.get m).intersect sq ray_ = some j →
          i.dist < j.dist := by
  intro ts
  induction ts with
  | nil => intro i h; simp [first_min_hit] at h
  | cons t ts ih =>
    intro i h
    cases hti : t.intersect sq ray_ with
    | none =>
      simp only [first_min_hit, hti] at h
      obtain ⟨k, hk, hfirst⟩ := ih i h
      refine ⟨k.succ, by simpa using hk, ?_⟩
      intro m hm j hmj
      induction m using Fin.cases with
      | zero =>
        simp only [List.get_cons_zero, hti] at hmj
        exact Option.noConfusion hmj
      | succ m2 =>
        refine hfirst m2 ?_ j (by simpa using hmj)
        simpa using hm
    | some i0 =>
      cases hmh : first_min_hit sq ray_ ts with
      | none =>
        simp only [first_min_hit, hti, hmh, Option.some.injEq] at h
        subst h
        refine ⟨⟨0, by simp⟩, hti, ?_⟩
        intro m hm
        exact absurd hm (Nat.not_lt_zero _)
      | some j0 =>
        simp only [first_min_hit, hti, hmh, Option.some.injEq] at h
        by_cases hle : i0.dist ≤ j0.dist
        · rw [if_pos hle] at h; subst h
          refine ⟨⟨0, by simp⟩, hti, ?_⟩
          intro m hm
          exact absurd hm (Nat.not_lt_zero _)
        · rw [if_neg hle] at h; subst h
          obtain ⟨k, hk, hfirst⟩ := ih j0 hmh
          refine ⟨k.succ, by simpa using hk, ?_⟩
          intro m hm j hmj
          induction m using Fin.cases with
          | zero =>
            simp only [List.get_cons_zero, hti, Option.some.injEq] at hmj
            rw [← hmj]
            exact not_le.mp hle
          | succ m2 =>
            refine hfirst m2 ?_ j (by simpa using hmj)
            simpa using hm

theorem gi_foldl_eq (sq : ℚ → ℚ) (ray_ : ray) :
    ∀ (ts : List any_thing) (acc : ℚ × intersection),
      (∀ t ∈ ts, ∀ i, t.intersect sq ray_ = some i → i.dist < flt_max) →
      acc.1 ≤ flt_max →
      ts.foldl (gi_step sq ray_) acc =
        (match first_min_hit sq ray_ ts with
         | none => acc
         | some j => if j.dist < acc.1 then (j.dist, j) else acc) := by
  intro ts
  induction ts with
  | nil => intro acc _ _; rfl
  | cons t ts ih =>
    intro acc hb hacc
    have hbts : ∀ t2 ∈ ts, ∀ i, t2.intersect sq ray_ = some i → i.dist < flt_max :=
      fun t2 ht2 => hb t2 (List.mem_cons_of_mem _ ht2)
    have hstep : (gi_step sq ray_ acc t).1 ≤ flt_max := by
      unfold gi_step
      cases hti : t.intersect sq ray_ with
      | none => exact hacc
      | some i =>
        dsimp only
        split_ifs with hlt
        · exact le_of_lt (hb t (List.mem_cons_self _ _) i hti)
        · exact hacc
    rw [List.foldl_cons, ih (gi_step sq ray_ acc t) hbts hstep]
    cases hti : t.intersect sq ray_ with
    | none => simp [first_min_hit, gi_step, hti]
    | some i =>
      cases hmh : first_min_hit sq ray_ ts with
      | none =>
        simp only [first_min_hit, gi_step, hti, hmh]
      | some j =>
        simp only [first_min_hit, gi_step, hti, hmh]
        split_ifs <;> simp_all <;> linarith

theorem get_intersections_eq_first_min_hit (sq : ℚ → ℚ) (ray_ : ray) (ts : List any_thing)
    (hb : ∀ t ∈ ts, ∀ i, t.intersect sq ray_ = some i → i.dist < flt_max) :
    get_intersections sq ray_ ts = first_min_hit sq ray_ ts := by
  unfold get_intersections
  rw [gi_foldl_eq sq ray_ ts (flt_max, zero_intersection) hb le_rfl]
  cases hmh : first_min_hit sq ray_ ts with
  | none => simp
  | some j =>
    have hj : j.dist < flt_max := by
      obtain ⟨t, ht, h2⟩ := first_min_hit_mem sq ray_ ts j hmh
      exact hb t ht j h2
    simp only
    rw [if_pos hj, if_neg (show (j.dist, j).1 ≠ flt_max from ne_of_lt hj)]

/-- Claim C1 (amended): assuming every intersection the things report
has dist below the float sentinel flt_max, get_intersections returns
the reported intersection with the smallest dist - not the smallest
positive dist: the returned dist may be zero or negative - with ties
broken in favour of the first thing in sequence order (strict <
comparison), and returns no hit exactly when no thing reports an
intersection. -/
theorem get_intersections_min (sq : ℚ → ℚ) (ray_ : ray) (ts : List any_thing)
    (hb : ∀ t ∈ ts, ∀ i, t.intersect sq ray_ = some i → i.dist < flt_max) :
    (get_intersections sq ray_ ts = none ↔ ∀ t ∈ ts, t.intersect sq ray_ = none) ∧
    (∀ i, get_intersections sq ray_ ts = some i →
      (∃ t ∈ ts, t.intersect sq ray_ = some i) ∧
      (∀ t ∈ ts, ∀ j, t.intersect sq ray_ = some j → i.dist ≤ j.dist) ∧
      (∃ k : Fin ts.length, (ts.get k).intersect sq ray_ = some i ∧
        ∀ m : Fin ts.length, (m : ℕ) < (k : ℕ) →
          ∀ j, (ts.get m).intersect sq ray_ = some j → i.dist < j.dist)) := by
  have heq := get_intersections_eq_first_min_hit sq ray_ ts hb
  constructor
  · rw [heq]
    exact first_min_hit_none_iff sq ray_ ts
  · intro i hi
    rw [heq] at hi
    exact ⟨first_min_hit_mem sq ray_ ts i hi, first_min_hit_min sq ray_ ts i hi,
      first_min_hit_first sq ray_ ts i hi⟩

theorem cthing_intersect_eval :
    any_thing.intersect wsq cthing cray = some ⟨cthing, cray, -1⟩ := by
  simp only [any_thing.intersect, cthing, plane.intersect, cplane, cray]
  norm_num [dot]

theorem get_intersections_eval_neg :
    get_intersections wsq cray [cthing] = some ⟨cthing, cray, -1⟩ := by
  have hb : ∀ t ∈ [cthing], ∀ i, t.intersect wsq cray = some i → i.dist < flt_max := by
    intro t ht i hi
    simp only [List.mem_singleton] at ht
    subst ht
    rw [cthing_intersect_eval] at hi
    cases hi
    norm_num [flt_max]
  rw [get_intersections_eq_first_min_hit wsq cray [cthing] hb]
  simp [first_min_hit, cthing_intersect_eval]

/-- Claim C1 counterexample: it is not the case that every intersection
get_intersections returns has dist > 0: on the one-plane scene above it
returns the intersection with dist = -1. -/
theorem get_intersections_pos_dist_refuted :
    ¬ (∀ i, get_intersections wsq cray [cthing] = some i → 0 < i.dist) := by
  intro hall
  have h := hall ⟨cthing, cray, -1⟩ get_intersections_eval_neg
  norm_num at h

theorem get_intersections_min_witness :
    get_intersections wsq cray [cthing] = none ↔
      ∀ t ∈ [cthing], any_thing.intersect wsq t cray = none := by
  refine (get_intersections_min wsq cray [cthing] ?_).1
  intro t ht i hi
  simp only [List.mem_singleton] at ht
  subst ht
  rw [cthing_intersect_eval] at hi
  cases hi
  norm_num [flt_max]

/-- Claim C6 (amended): add_light returns col immediately (skipping the
lighting terms) when the shadow test ray from pos toward the light hits
something at a distance strictly less than mag(light.pos - pos); a
nearest hit distance equal to mag(light.pos - pos) exactly is treated
as unshadowed, and then (as in every unshadowed case) the diffuse and
specular terms - each of which can be zero, so the result can equal col
even without a shadow - are added to col. -/
theorem add_light_shadow (sq : ℚ → ℚ) (thing : any_thing) (pos normal rd : vec3)
    (scene_ : scene) (col : color) (light_ : light) :
    (∀ d, test_ray sq ⟨pos, norm sq (light_.pos - pos)⟩ scene_ = some d →
      d < mag sq (light_.pos - pos) →
      add_light sq thing pos normal rd scene_ col light_ = col) ∧
    (test_ray sq ⟨pos, norm sq (light_.pos - pos)⟩ scene_ = some (mag sq (light_.pos - pos)) →
      add_light sq thing pos normal rd scene_ col light_ =
        col +
          thing.get_surface.diffuse pos *
            (if 0 < dot (norm sq (light_.pos - pos)) normal
             then scale (dot (norm sq (light_.pos - pos)) normal) light_.col
             else color.default_color) +
          thing.get_surface.specular pos *
            (if 0 < dot (norm sq (light_.pos - pos)) (norm sq rd)
             then scale
               (cmath.pow (dot (norm sq (light_.pos - pos)) (norm sq rd))
                 thing.get_surface.roughness) light_.col
             else color.default_color)) := by
  constructor
  · intro d hd hlt
    simp only [add_light]
    rw [hd]
    simp [hlt]
  · intro hd
    simp only [add_light]
    rw [hd]
    simp [lt_irrefl]

theorem add_light_empty_scene_eval :
    add_light wsq wthing ⟨0, 0, 0⟩ ⟨0, -1, 0⟩ ⟨0, -2, 0⟩ wscene_empty wcol wlight = wcol := by
  norm_num [add_light, test_ray, get_intersections, norm, mag, dot, wsq, wthing, wsphere,
    surfaces.shiny, any_thing.get_surface, scale, color.default_color, color.black,
    wscene_empty, wlight, wcol, vec3_sub_mk, vec3_smul_mk, color_add_mk, color_mul_mk]

theorem test_ray_empty_scene_eval :
    test_ray wsq ⟨⟨0, 0, 0⟩, norm wsq (wlight.pos - ⟨0, 0, 0⟩)⟩ wscene_empty = none := by
  norm_num [test_ray, get_intersections, wscene_empty]

/-- Claim C6 counterexample: add_light does not return col unchanged
ONLY when shadowed.  With no things in the scene (so the shadow test
ray hits nothing at all) and the light behind the surface, both the
diffuse and the specular term are black and the input accumulator is
returned unchanged, refuting the claimed equivalence at this input. -/
theorem add_light_exactly_when_refuted :
    ¬ ((add_light wsq wthing ⟨0, 0, 0⟩ ⟨0, -1, 0⟩ ⟨0, -2, 0⟩ wscene_empty wcol wlight = wcol) ↔
      (∃ d, test_ray wsq ⟨⟨0, 0, 0⟩, norm wsq (wlight.pos - ⟨0, 0, 0⟩)⟩ wscene_empty = some d ∧
        d < mag wsq (wlight.pos - ⟨0, 0, 0⟩))) := by
  intro hiff
  obtain ⟨d, hd, _⟩ := hiff.mp add_light_empty_scene_eval
  rw [test_ray_empty_scene_eval] at hd
  exact Option.noConfusion hd

theorem cmath_pow_one (n : ℤ) : cmath.pow 1 n = 1 := by
  have key : ∀ k : ℕ, ∀ n : ℤ, n.toNat ≤ k → cmath.pow 1 n = 1 := by
    intro k
    induction k with
    | zero =>
      intro n hn
      rw [cmath.pow, dif_neg (by omega)]
    | succ k ih =>
      intro n hn
      by_cases h : 0 < n
      · rw [cmath.pow, dif_pos h]
        rw [show (1 : ℚ) * 1 = 1 by norm_num]
        exact ih (n - 1) (by omega)
      · rw [cmath.pow, dif_neg h]
  exact key n.toNat n le_rfl

theorem add_light_shadow_witness :
    add_light wsq wthing ⟨0, 0, 0⟩ ⟨0, 1, 0⟩ ⟨0, 2, 0⟩ wscene_near wcol wlight = wcol ∧
    add_light wsq wthing ⟨0, 0, 0⟩ ⟨0, 1, 0⟩ ⟨0, 2, 0⟩ wscene_far wcol wlight =
      ⟨7/4, 3/2, 9/4⟩ := by
  have hlivec : norm wsq (wlight.pos - (⟨0, 0, 0⟩ : vec3)) = ⟨0, 1, 0⟩ := by
    norm_num [norm, mag, dot, wsq, wlight, vec3_sub_mk, vec3_smul_mk]
  have hmag : mag wsq (wlight.pos - (⟨0, 0, 0⟩ : vec3)) = 2 := by
    norm_num [mag, dot, wsq, wlight, vec3_sub_mk]
  constructor
  · refine (add_light_shadow wsq wthing ⟨0, 0, 0⟩ ⟨0, 1, 0⟩ ⟨0, 2, 0⟩
      wscene_near wcol wlight).1 1 ?_ ?_
    · rw [hlivec]
      norm_num [test_ray, get_intersections, gi_step, any_thing.intersect, plane.intersect,
        wplane_near, wscene_near, dot, flt_max]
    · rw [hmag]
      norm_num
  · refine ((add_light_shadow wsq wthing ⟨0, 0, 0⟩ ⟨0, 1, 0⟩ ⟨0, 2, 0⟩
      wscene_far wcol wlight).2 ?_).trans ?_
    · rw [hlivec, hmag]
      norm_num [test_ray, get_intersections, gi_step, any_thing.intersect, plane.intersect,
        wplane_far, wscene_far, dot, flt_max]
    · rw [hlivec]
      norm_num [dot, wthing, wsphere, surfaces.shiny, any_thing.get_surface, norm, mag, wsq,
        cmath_pow_one, scale, wlight, wcol, color.white, color.grey, color_add_mk, color_mul_mk,
        vec3_smul_mk, vec3_sub_mk]

end rt

namespace rtR

@[simp] theorem vec3R_sub_x (a b : vec3R) : (a - b).x = a.x - b.x := rfl

@[simp] theorem vec3R_sub_y (a b : vec3R) : (a - b).y = a.y - b.y := rfl

@[simp] theorem vec3R_sub_z (a b : vec3R) : (a - b).z = a.z - b.z := rfl

@[simp] theorem vec3R_smul_x (k : ℝ) (v : vec3R) : (k • v).x = k * v.x := rfl

@[simp] theorem vec3R_smul_y (k : ℝ) (v : vec3R) : (k • v).y = k * v.y := rfl

@[simp] theorem vec3R_smul_z (k : ℝ) (v : vec3R) : (k • v).z = k * v.z := rfl

theorem dotR_self_nonneg (v : vec3R) : 0 ≤ dotR v v := by
  simp only [dotR]
  nlinarith [mul_self_nonneg v.x, mul_self_nonneg v.y, mul_self_nonneg v.z]

theorem dotR_self_pos (v : vec3R) (h : v ≠ ⟨0, 0, 0⟩) : 0 < dotR v v := by
  rcases v with ⟨x, y, z⟩
  have hne : x ≠ 0 ∨ y ≠ 0 ∨ z ≠ 0 := by
    by_contra hc
    push_neg at hc
    exact h (by rw [hc.1, hc.2.1, hc.2.2])
  simp only [dotR]
  rcases hne with hx | hy | hz
  · have := mul_self_pos.mpr hx
    nlinarith [mul_self_nonneg y, mul_self_nonneg z]
  · have := mul_self_pos.mpr hy
    nlinarith [mul_self_nonneg x, mul_self_nonneg z]
  · have := mul_self_pos.mpr hz
    nlinarith [mul_self_nonneg x, mul_self_nonneg y]

theorem magR_nonneg (v : vec3R) : 0 ≤ magR v := Real.sqrt_nonneg _

theorem magR_pos (v : vec3R) (h : v ≠ ⟨0, 0, 0⟩) : 0 < magR v :=
  Real.sqrt_pos.mpr (dotR_self_pos v h)

theorem sq_magR (v : vec3R) : magR v ^ 2 = dotR v v := Real.sq_sqrt (dotR_self_nonneg v)

theorem dotR_smul_right (k : ℝ) (a b : vec3R) : dotR a (k • b) = k * dotR a b := by
  simp only [dotR, vec3R_smul_x, vec3R_smul_y, vec3R_smul_z]
  ring

theorem dotR_smul_self (k : ℝ) (v : vec3R) : dotR (k • v) (k • v) = k ^ 2 * dotR v v := by
  simp only [dotR, vec3R_smul_x, vec3R_smul_y, vec3R_smul_z]
  ring

theorem magR_smul (k : ℝ) (v : vec3R) (hk : 0 ≤ k) : magR (k • v) = k * magR v := by
  unfold magR
  rw [dotR_smul_self, Real.sqrt_mul (sq_nonneg k), Real.sqrt_sq hk]

theorem magR_normR (v : vec3R) (h : v ≠ ⟨0, 0, 0⟩) : magR (normR v) = 1 := by
  unfold normR
  rw [magR_smul _ _ (div_nonneg zero_le_one (magR_nonneg v))]
  field_simp [ne_of_gt (magR_pos v h)]

theorem dotR_normR_right (a b : vec3R) : dotR a (normR b) = (1 / magR b) * dotR a b := by
  unfold normR
  exact dotR_smul_right _ a b

theorem dotR_crossR_left (a b : vec3R) : dotR a (crossR a b) = 0 := by
  simp only [dotR, crossR]
  ring

theorem dotR_crossR_right (a b : vec3R) : dotR b (crossR a b) = 0 := by
  simp only [dotR, crossR]
  ring

theorem dotR_crossR_lagrange (a b : vec3R) :
    dotR (crossR a b) (crossR a b) = dotR a a * dotR b b - (dotR a b) ^ 2 := by
  simp only [dotR, crossR]
  ring

theorem cameraR_forward (pos look_at : vec3R) :
    (cameraR.mk_from pos look_at).forward = normR (look_at - pos) := rfl

theorem cameraR_right (pos look_at : vec3R) :
    (cameraR.mk_from pos look_at).right =
      (3 / 2 : ℝ) • normR (crossR (normR (look_at - pos)) ⟨0, -1, 0⟩) := rfl

theorem cameraR_up (pos look_at : vec3R) :
    (cameraR.mk_from pos look_at).up =
      (3 / 2 : ℝ) • normR (crossR (normR (look_at - pos))
        ((3 / 2 : ℝ) • normR (crossR (normR (look_at - pos)) ⟨0, -1, 0⟩))) := rfl

/-- Claim C10: for pos and look_at with look_at distinct from pos and a
non-degenerate cross product with the (0, -1, 0) reference, the
constructed camera has pairwise orthogonal forward, right and up, with
mag forward = 1 and mag right = mag up = 1.5, in exact arithmetic. -/
theorem cameraR_basis (pos look_at : vec3R)
    (hne : look_at ≠ pos)
    (hcross : crossR (normR (look_at - pos)) ⟨0, -1, 0⟩ ≠ ⟨0, 0, 0⟩) :
    dotR (cameraR.mk_from pos look_at).forward (cameraR.mk_from pos look_at).right = 0 ∧
    dotR (cameraR.mk_from pos look_at).forward (cameraR.mk_from pos look_at).up = 0 ∧
    dotR (cameraR.mk_from pos look_at).right (cameraR.mk_from pos look_at).up = 0 ∧
    magR (cameraR.mk_from pos look_at).forward = 1 ∧
    magR (cameraR.mk_from pos look_at).right = 3 / 2 ∧
    magR (cameraR.mk_from pos look_at).up = 3 / 2 := by
  have hsub : look_at - pos ≠ (⟨0, 0, 0⟩ : vec3R) := by
    intro h0
    apply hne
    rcases look_at with ⟨lx, ly, lz⟩
    rcases pos with ⟨px, py, pz⟩
    simp only [vec3R.mk.injEq] at h0 ⊢
    have h0x : lx - px = 0 := by
      have := congrArg vec3R.x h0
      simpa using this
    have h0y : ly - py = 0 := by
      have := congrArg vec3R.y h0
      simpa using this
    have h0z : lz - pz = 0 := by
      have := congrArg vec3R.z h0
      simpa using this
    exact ⟨by linarith, by linarith, by linarith⟩
  have hfwd_mag : magR (normR (look_at - pos)) = 1 := magR_normR _ hsub
  have h32 : (0 : ℝ) ≤ 3 / 2 := by norm_num
  have h_fr : dotR (normR (look_at - pos))
      ((3 / 2 : ℝ) • normR (crossR (normR (look_at - pos)) ⟨0, -1, 0⟩)) = 0 := by
    rw [dotR_smul_right, dotR_normR_right, dotR_crossR_left]
    ring
  have hright_mag : magR ((3 / 2 : ℝ) • normR (crossR (normR (look_at - pos)) ⟨0, -1, 0⟩)) =
      3 / 2 := by
    rw [magR_smul _ _ h32, magR_normR _ hcross]
    ring
  have hfwd_dot : dotR (normR (look_at - pos)) (normR (look_at - pos)) = 1 := by
    rw [← sq_magR, hfwd_mag]
    norm_num
  have hright_dot : dotR ((3 / 2 : ℝ) • normR (crossR (normR (look_at - pos)) ⟨0, -1, 0⟩))
      ((3 / 2 : ℝ) • normR (crossR (normR (look_at - pos)) ⟨0, -1, 0⟩)) = 9 / 4 := by
    rw [← sq_magR, hright_mag]
    norm_num
  have hc2_dot : dotR
      (crossR (normR (look_at - pos))
        ((3 / 2 : ℝ) • normR (crossR (normR (look_at - pos)) ⟨0, -1, 0⟩)))
      (crossR (normR (look_at - pos))
        ((3 / 2 : ℝ) • normR (crossR (normR (look_at - pos)) ⟨0, -1, 0⟩))) = 9 / 4 := by
    rw [dotR_crossR_lagrange, hfwd_dot, hright_dot, h_fr]
    norm_num
  have hc2_ne : crossR (normR (look_at - pos))
      ((3 / 2 : ℝ) • normR (crossR (normR (look_at - pos)) ⟨0, -1, 0⟩)) ≠ ⟨0, 0, 0⟩ := by
    intro h0
    rw [h0] at hc2_dot
    simp only [dotR] at hc2_dot
    norm_num at hc2_dot
  refine ⟨?_, ?_, ?_, ?_, ?_, ?_⟩
  · rw [cameraR_forward, cameraR_right]
    exact h_fr
  · rw [cameraR_forward, cameraR_up]
    rw [dotR_smul_right, dotR_normR_right, dotR_crossR_left]
    ring
  · rw [cameraR_right, cameraR_up]
    rw [dotR_smul_right, dotR_normR_right, dotR_crossR_right]
    ring
  · rw [cameraR_forward]
    exact hfwd_mag
  · rw [cameraR_right]
    exact hright_mag
  · rw [cameraR_up]
    rw [magR_smul _ _ h32, magR_normR _ hc2_ne]
    ring

theorem cameraR_basis_witness :
    dotR (cameraR.mk_from ⟨0, 0, 0⟩ ⟨0, 0, -1⟩).forward
        (cameraR.mk_from ⟨0, 0, 0⟩ ⟨0, 0, -1⟩).right = 0 ∧
    dotR (cameraR.mk_from ⟨0, 0, 0⟩ ⟨0, 0, -1⟩).forward
        (cameraR.mk_from ⟨0, 0, 0⟩ ⟨0, 0, -1⟩).up = 0 ∧
    dotR (cameraR.mk_from ⟨0, 0, 0⟩ ⟨0, 0, -1⟩).right
        (cameraR.mk_from ⟨0, 0, 0⟩ ⟨0, 0, -1⟩).up = 0 ∧
    magR (cameraR.mk_from ⟨0, 0, 0⟩ ⟨0, 0, -1⟩).forward = 1 ∧
    magR (cameraR.mk_from ⟨0, 0, 0⟩ ⟨0, 0, -1⟩).right = 3 / 2 ∧
    magR (cameraR.mk_from ⟨0, 0, 0⟩ ⟨0, 0, -1⟩).up = 3 / 2 := by
  refine cameraR_basis ⟨0, 0, 0⟩ ⟨0, 0, -1⟩ ?_ ?_
  · intro h0
    have := congrArg vec3R.z h0
    norm_num at this
  · intro h0
    have := congrArg vec3R.x h0
    simp only [crossR, normR, magR, dotR] at this
    norm_num [Real.sqrt_one] at this

end rtR
